import Mathlib

/-!
# Metaserializer: shallow embedding and verification

This file embeds the encoding engine of `include/Metaserializer.hpp` in Lean 4
and proves properties of it.  Bytes are modelled as `List Nat` (each entry one
byte of the little-endian memory image, matching the single-environment native
layout the design assumes).  C++ `size_t` arithmetic is modelled modulo `2^64`
and `serial_size_t` (a `short`) as a signed 16-bit read of two bytes.
Fallible operations return `Except Err`.  Reads that run past the supplied
bytes but stay inside the scratch buffer yield 0, because `copy_to_buffer`
zeroes the whole scratch buffer before copying the input into it.
-/

namespace Metaserializer

/-- Error taxonomy of the engine: the `std::runtime_error` throw sites of the
header, plus `lengthError` for the `std::length_error` thrown by the
`std::string` constructor on an over-`max_size` count, and `compositeError`
for an exception escaping a user-supplied `unserialize`. -/
inductive Err where
  | capacityExceeded
  | truncatedInput
  | schemaMismatch
  | sizeUnderrun
  | lengthError
  | compositeError
deriving DecidableEq, Repr

/-- `sizeof(serial_size_t)` = `sizeof(short)` = 2. -/
def serial_size : Nat := 2

/-- `sizeof(size_t)` = 8: width of the schema fingerprint stored at offset 0. -/
def hash_size : Nat := 8

/-- Little-endian 2-byte image of `n` truncated to 16 bits: the bytes written
by `memcpy(buffer, &byte_size_value, sizeof(serial_size_t))` after a
`static_cast<serial_size_t>`. -/
def encode16 (n : Nat) : List Nat :=
  [n % 256, n / 256 % 256]

/-- Value of the first two bytes of `buf` read little-endian (a `memcpy` into
a 2-byte integer); absent bytes read 0 (zeroed scratch buffer). -/
def read16 (buf : List Nat) : Nat :=
  buf.getD 0 0 + 256 * buf.getD 1 0

/-- Reinterpret a 16-bit value as C++ `short` (signed, two's complement). -/
def toSigned16 (v : Nat) : Int :=
  if v < 32768 then (v : Int) else (v : Int) - 65536

/-- Conversion of a signed value to `size_t`: reduction modulo `2^64`. -/
def sizeAsSizeT (v : Int) : Nat :=
  (v % (2 ^ 64 : Int)).toNat

/-- `size_t` subtraction (wraps modulo `2^64`), used for the
`bytes_in_buffer - bytes_read` bookkeeping of `Unserialize::exec_impl`. -/
def sub64 (a b : Nat) : Nat :=
  (a + 2 ^ 64 - b % 2 ^ 64) % 2 ^ 64

/-- Little-endian 8-byte image of `n % 2^64`: the bytes written by
`memcpy(buffer, &hash, sizeof(size_t))` in `Serialize::set_hash`. -/
def encode64 (n : Nat) : List Nat :=
  [n % 256, n / 2 ^ 8 % 256, n / 2 ^ 16 % 256, n / 2 ^ 24 % 256,
   n / 2 ^ 32 % 256, n / 2 ^ 40 % 256, n / 2 ^ 48 % 256, n / 2 ^ 56 % 256]

/-- Value of the first eight bytes of `buf` read little-endian: the `memcpy`
into a `size_t` performed by `Unserialize::get_hash_from_bytes`. -/
def read64 (buf : List Nat) : Nat :=
  buf.getD 0 0 + 2 ^ 8 * buf.getD 1 0 + 2 ^ 16 * buf.getD 2 0 +
  2 ^ 24 * buf.getD 3 0 + 2 ^ 32 * buf.getD 4 0 + 2 ^ 40 * buf.getD 5 0 +
  2 ^ 48 * buf.getD 6 0 + 2 ^ 56 * buf.getD 7 0

/-- `l.take n` padded with zero bytes up to length `n`: the result of a
`memcpy` of `n` bytes that may run past the supplied data into the zeroed
region of the scratch buffer. -/
def takePad (n : Nat) (l : List Nat) : List Nat :=
  l.take n ++ List.replicate (n - l.length) 0

namespace TypeHasher

/-- `TypeHasher::exec_impl` (lines 43-66): left fold of bitwise XOR over the
per-type identities (`typeid(T).hash_code()` values), threading the
accumulator. -/
def exec_impl : Nat → List Nat → Nat
  | value, [] => value
  | value, h :: rest => exec_impl (value ^^^ h) rest

/-- `TypeHasher::apply` (lines 77-81): start the XOR fold with accumulator 0. -/
def apply (ids : List Nat) : Nat :=
  exec_impl 0 ids

end TypeHasher

/-- Stand-in identity for C++ `int` (`typeid(int).hash_code()`); the concrete
value is implementation defined, only equality between occurrences of the same
type matters. -/
def intTypeId : Nat := 11

/-- Stand-in identity for `std::string` (`typeid(std::string).hash_code()`). -/
def stringTypeId : Nat := 23

namespace ComplexObjectString

/-- `ComplexObject<std::string,false>::serialize` (lines 210-218): write the
byte length cast to `serial_size_t` (2 bytes, value reduced mod `2^16`)
followed by the character bytes; returns `2 + length` bytes, with no error
path. -/
def serialize (obj : List Nat) : List Nat :=
  encode16 obj.length ++ obj

/-- `ComplexObject<std::string,false>::unserialize` (lines 228-240): read the
2-byte length as a signed `serial_size_t`, form
`full_size = string_size + 2` in `size_t` arithmetic, throw when `full_size`
exceeds the remaining bytes, otherwise reconstruct the string from
`string_size` bytes after the length and consume `full_size` bytes.  When
`string_size` is negative but `full_size` is small enough to pass the guard
(prefixes 0xFFFE and 0xFFFF, giving `full_size` 0 and 1), the
`std::string(buffer + 2, string_size)` constructor at line 237 receives a
count of at least `2^64 - 32768`, which exceeds `std::string::max_size()`, so
it throws `std::length_error`; that outcome is `Err.lengthError`. -/
def unserialize (buf : List Nat) (buffer_size : Nat) : Except Err (List Nat × Nat) :=
  let string_size := toSigned16 (read16 buf)
  let full_size := sizeAsSizeT (string_size + 2)
  if full_size > buffer_size then .error .sizeUnderrun
  else if string_size < 0 then .error .lengthError
  else .ok (takePad (sizeAsSizeT string_size) (buf.drop 2), full_size)

end ComplexObjectString

namespace TypeUnserializerImplSimple

/-- `TypeUnserializerImpl<T,false,true>::apply` (lines 526-529): fail when
`sizeof(T)` exceeds the remaining bytes, otherwise `memcpy` the `w = sizeof(T)`
bytes back and consume `w`. -/
def apply (w : Nat) (buf : List Nat) (buffer_size : Nat) : Except Err (List Nat × Nat) :=
  if w > buffer_size then .error .sizeUnderrun
  else .ok (takePad w buf, w)

end TypeUnserializerImplSimple

/-- Split `cnt` consecutive chunks of `w` bytes off `l` (the element images
recovered by the array decoder's bulk `memcpy`). -/
def toChunks (w : Nat) : Nat → List Nat → List (List Nat)
  | 0, _ => []
  | n + 1, l => l.take w :: toChunks w n (l.drop w)

namespace TypeSerializerImplArrTrivial

/-- `TypeSerializerImpl<T[N],true,true>::apply` (lines 315-324): write
`static_cast<serial_size_t>(N)` (2 bytes) followed by the `sizeof(T) * N` raw
element bytes. -/
def apply (elems : List (List Nat)) : List Nat :=
  encode16 elems.length ++ elems.flatten

end TypeSerializerImplArrTrivial

namespace TypeUnserializerImplArrTrivial

/-- `TypeUnserializerImpl<T[N],true,true>::apply` (lines 439-453): read the
2-byte wire count as a signed `serial_size_t`, then copy
`sizeof(T) * size` bytes into the output array and consume
`sizeof(T) * size + 2`, both computed in `size_t` arithmetic, i.e. wrapping
modulo `2^64` (a negative wire count sign-extends to a value near `2^64`
first).  The copied block of `bytes2cpy` bytes fills `bytes2cpy / w` complete
output elements of width `w`; a trailing partially-written element, possible
only when the product wraps to a non-multiple of `w`, is not represented.
The two `std::runtime_error` expressions at lines 441 and 448 construct the
exception object but do not `throw` it, so the size checks have no effect and
the copy is always performed; accordingly this function cannot fail.  The
declared array length `N` and `buffer_size` are parameters of the C++
function but do not influence the result (output slots past the wire count
are left untouched and are not modelled). -/
def apply (w N : Nat) (buf : List Nat) (buffer_size : Nat) : List (List Nat) × Nat :=
  let size := sizeAsSizeT (toSigned16 (read16 buf))
  let bytes2cpy := w * size % 2 ^ 64
  (toChunks w (bytes2cpy / w) (takePad bytes2cpy (buf.drop 2)), (w * size + 2) % 2 ^ 64)

end TypeUnserializerImplArrTrivial

/-- The structural field kinds the engine dispatches on
(`TypeSerializer`/`TypeUnserializer`, lines 536-580): trivially copyable
scalar of a given byte width, `std::string`, static array of a trivial element
type with a declared length, and a composite class with its own
serialize/unserialize methods. -/
inductive FieldTy where
  | trivialScalar (width : Nat)
  | str
  | arrTrivial (elemWidth : Nat) (count : Nat)
  | composite
deriving DecidableEq, Repr

/-- Model of `typeid(T).hash_code()` for the field types: an arbitrary but
fixed assignment of identities below `2^64` (the concrete values are
implementation defined in C++; the proofs depend only on equal types having
equal identities). -/
def typeIdentity : FieldTy → Nat
  | .trivialScalar w => (11 + 64 * w) % 2 ^ 64
  | .str => 23
  | .arrTrivial w n => (37 + 64 * w + 131 * n) % 2 ^ 64
  | .composite => 51

/-- Fingerprint of a type sequence: the XOR fold of the per-type identities,
as computed identically by `Serialize::set_hash` and
`Unserialize::check_type`. -/
def fingerprintTys (tys : List FieldTy) : Nat :=
  TypeHasher.apply (tys.map typeIdentity)

/-- A field value of one of the supported kinds; `γ` is the carrier of
composite (user-class) values. -/
inductive FieldVal (γ : Type) where
  | trivialScalar (bytes : List Nat)
  | str (s : List Nat)
  | arrTrivial (elemWidth : Nat) (elems : List (List Nat))
  | composite (v : γ)
deriving DecidableEq, Repr

/-- The serialize/unserialize capability of a composite user class
(`HasSerializeMethod`/`HasUnserializeMethod`): `ser` models
`std::string T::serialize()`, `unser` models
`size_t T::unserialize(std::string&)` returning the reconstructed value and
the consumed byte count (`none` models an exception escaping the method). -/
structure CompositeCodec (γ : Type) where
  ser : γ → List Nat
  unser : List Nat → Option (γ × Nat)

/-- A correct capability: decoding the encoding (followed by anything) yields
the original value and consumes exactly the encoding's length. -/
def CompositeCodec.RoundTrips {γ : Type} (cc : CompositeCodec γ) : Prop :=
  ∀ (v : γ) (rest : List Nat), cc.unser (cc.ser v ++ rest) = some (v, (cc.ser v).length)

/-- Per-field dispatch of `TypeSerializer::apply` (lines 546-553): route the
field to its codec and return the bytes written. -/
def encodeField {γ : Type} (cc : CompositeCodec γ) : FieldVal γ → List Nat
  | .trivialScalar bytes => bytes
  | .str s => ComplexObjectString.serialize s
  | .arrTrivial _ elems => TypeSerializerImplArrTrivial.apply elems
  | .composite v => cc.ser v

/-- Per-field dispatch of `TypeUnserializer::apply` (lines 572-579): route to
the codec for the declared type, passing the remaining byte count.  For a
composite field, `ComplexObject<T,true>::unserialize` (lines 178-181) builds a
`std::string` from exactly the `bytes_remaining` bytes at the cursor and hands
it to the user class. -/
def decodeField {γ : Type} (cc : CompositeCodec γ) :
    FieldTy → List Nat → Nat → Except Err (FieldVal γ × Nat)
  | .trivialScalar w, buf, bs =>
    (TypeUnserializerImplSimple.apply w buf bs).map fun p => (.trivialScalar p.1, p.2)
  | .str, buf, bs =>
    (ComplexObjectString.unserialize buf bs).map fun p => (.str p.1, p.2)
  | .arrTrivial w n, buf, bs =>
    let p := TypeUnserializerImplArrTrivial.apply w n buf bs
    .ok (.arrTrivial w p.1, p.2)
  | .composite, buf, bs =>
    match cc.unser (buf.take bs) with
    | some (v, k) => .ok (.composite v, k)
    | none => .error .compositeError

namespace Serialize

/-- `Serialize::apply` (lines 649-657): write the fingerprint of the argument
types at offset 0 (`set_hash`), then each field's encoding in order
(`exec_impl`), and return the bytes written as a string.  The template
parameter `BufferSize` only fixes the length of the stack scratch array; the
function contains no capacity check, so the returned byte string is produced
regardless of how its length compares to `BufferSize` (exceeding it is an
out-of-bounds write in the C++, not an error path). -/
def apply {γ : Type} (cc : CompositeCodec γ) (tys : List FieldTy) (fs : List (FieldVal γ)) :
    List Nat :=
  encode64 (fingerprintTys tys) ++ (fs.map (encodeField cc)).flatten

end Serialize

namespace Unserialize

/-- `Unserialize::exec_impl` (lines 716-738): decode fields left to right,
advancing the cursor by each field's consumed bytes and decreasing the
remaining count in `size_t` arithmetic. -/
def exec_impl {γ : Type} (cc : CompositeCodec γ) :
    List FieldTy → List Nat → Nat → Except Err (List (FieldVal γ) × Nat)
  | [], _, _ => .ok ([], 0)
  | ty :: tys, buf, bs =>
    match decodeField cc ty buf bs with
    | .error e => .error e
    | .ok p =>
      match exec_impl cc tys (buf.drop p.2) (sub64 bs p.2) with
      | .error e => .error e
      | .ok q => .ok (p.1 :: q.1, p.2 + q.2)

/-- `Unserialize::apply` (lines 764-780): reject when the input exceeds the
buffer capacity; `copy_to_buffer` zeroes the scratch buffer and copies the
input (giving the zero-padded view); `check_type` first rejects inputs shorter
than the fingerprint (`get_hash_from_bytes`, lines 677-685) and then rejects
on fingerprint mismatch, all before any output field is touched; finally the
fields are decoded starting right after the fingerprint. -/
def apply {γ : Type} (cc : CompositeCodec γ) (capacity : Nat) (tys : List FieldTy)
    (data : List Nat) : Except Err (List (FieldVal γ) × Nat) :=
  if data.length > capacity then .error .capacityExceeded
  else if data.length < hash_size then .error .truncatedInput
  else if read64 data = fingerprintTys tys then
    match exec_impl cc tys ((data ++ List.replicate (capacity - data.length) 0).drop hash_size)
        (data.length - hash_size) with
    | .ok p => .ok (p.1, hash_size + p.2)
    | .error e => .error e
  else .error .schemaMismatch

end Unserialize

/-- Agreement of a field value with a declared field type, together with the
bounds under which the 16-bit length framing is faithful: a trivial scalar
carries exactly `sizeof(T)` bytes; a string is within the signed 16-bit
length range; an array has the declared element count (within the 16-bit
range), a positive element width (`sizeof` is never 0 in C++) and elements of
exactly that width. -/
def FieldVal.wf {γ : Type} : FieldVal γ → FieldTy → Prop
  | .trivialScalar bytes, .trivialScalar w => bytes.length = w
  | .str s, .str => s.length ≤ 32767
  | .arrTrivial w' elems, .arrTrivial w n =>
    w' = w ∧ elems.length = n ∧ n ≤ 32767 ∧ 0 < w ∧ ∀ e ∈ elems, e.length = w
  | .composite _, .composite => True
  | _, _ => False

/-- A composite codec that never succeeds at decoding; used to instantiate
record-level statements whose schemas contain no composite field. -/
def nullCodec : CompositeCodec Unit :=
  ⟨fun _ => [], fun _ => none⟩

/-- A concrete one-byte composite codec (encodes `()` as the byte 9) whose
capability round-trips; used to instantiate the round-trip theorem. -/
def unitCodec : CompositeCodec Unit :=
  ⟨fun _ => [9], fun _ => some ((), 1)⟩

end Metaserializer

open Metaserializer

section HasherLemmas

theorem exec_impl_eq_foldl (value : Nat) (l : List Nat) :
    TypeHasher.exec_impl value l = l.foldl (fun a h => a ^^^ h) value := by
  induction l generalizing value with
  | nil => rfl
  | cons h rest ih => simp [TypeHasher.exec_impl, ih]

end HasherLemmas

/-- C5: the fingerprint produced by `TypeHasher` is invariant under
permutation of the type sequence: any two sequences that are permutations of
each other (the same multiset of type identities) hash to the same value.  In
particular `fingerprint(IntType, StringType) = fingerprint(StringType,
IntType)` (see the witness). -/
theorem fingerprint_perm_invariant (l₁ l₂ : List Nat) (h : l₁.Perm l₂) :
    TypeHasher.apply l₁ = TypeHasher.apply l₂ := by
  unfold Metaserializer.TypeHasher.apply
  rw [exec_impl_eq_foldl, exec_impl_eq_foldl]
  have : RightCommutative (fun (a h : Nat) => a ^^^ h) :=
    ⟨fun a b c => by simp [Nat.xor_assoc, Nat.xor_comm b c]⟩
  exact h.foldl_eq 0

/-- Witness for C5 at the concrete instance named by the claim:
`fingerprint(IntType, StringType) = fingerprint(StringType, IntType)`. -/
theorem fingerprint_perm_invariant_witness :
    TypeHasher.apply [intTypeId, stringTypeId] =
      TypeHasher.apply [stringTypeId, intTypeId] :=
  fingerprint_perm_invariant _ _ (List.Perm.swap _ _ _)

/-- C6: for every type identity, hashing the two-element sequence `(T, T)`
yields the XOR fold's initial accumulator 0, which is also the value of the
fold over the empty sequence: an even number of repeats of a type cancels out
of the fingerprint. -/
theorem fingerprint_duplicate_cancel (id : Nat) :
    TypeHasher.apply [id, id] = TypeHasher.apply [] := by
  simp [TypeHasher.apply, TypeHasher.exec_impl]

section CodecLemmas

theorem toChunks_length (w : Nat) : ∀ (n : Nat) (l : List Nat), (toChunks w n l).length = n
  | 0, _ => rfl
  | n + 1, l => by simp [toChunks, toChunks_length w n]

end CodecLemmas

/-- C8: serializing the empty string writes exactly the 2-byte zero length
prefix, and deserializing a zero-length string from a buffer with at least 2
bytes remaining returns the empty string and consumes exactly 2 bytes. -/
theorem empty_string_framing :
    ComplexObjectString.serialize [] = [0, 0] ∧
    ∀ (rest : List Nat) (bs : Nat), 2 ≤ bs →
      ComplexObjectString.unserialize ([0, 0] ++ rest) bs = .ok ([], 2) := by
  refine ⟨rfl, fun rest bs h => ?_⟩
  have hr : read16 ([0, 0] ++ rest) = 0 := by simp [read16]
  have hs : toSigned16 0 = 0 := by simp [toSigned16]
  have h2 : sizeAsSizeT (0 + 2) = 2 := by decide
  have h0 : sizeAsSizeT 0 = 0 := by decide
  simp only [ComplexObjectString.unserialize, hr, hs, h2, h0]
  rw [if_neg (by omega)]
  simp [takePad]

/-- Witness for C8: concrete decode of the 2-byte zero-length framing from a
3-byte buffer with 5 bytes declared remaining. -/
theorem empty_string_framing_witness :
    ComplexObjectString.serialize [] = [0, 0] ∧
    ComplexObjectString.unserialize ([0, 0] ++ [7]) 5 = .ok ([], 2) :=
  ⟨empty_string_framing.1, empty_string_framing.2 [7] 5 (by omega)⟩

/-- C9: for a string longer than 32767 bytes, the serializer writes the byte
length reduced to the signed 16-bit `serial_size_t` as the prefix and has no
error path (the full payload is still written), so the prefix read back no
longer equals the number of payload bytes written. -/
theorem string_length_field_truncates (s : List Nat) (h : 32767 < s.length) :
    ComplexObjectString.serialize s = encode16 s.length ++ s ∧
    toSigned16 (read16 (ComplexObjectString.serialize s)) = toSigned16 (s.length % 65536) ∧
    toSigned16 (read16 (ComplexObjectString.serialize s)) ≠ (s.length : Int) := by
  have hr : read16 (ComplexObjectString.serialize s) = s.length % 65536 := by
    simp only [ComplexObjectString.serialize, encode16, read16, List.cons_append,
      List.getD_cons_zero, List.getD_cons_succ]
    omega
  refine ⟨rfl, by rw [hr], ?_⟩
  rw [hr]
  unfold toSigned16
  split <;> omega

/-- Witness for C9 at a 32768-byte string: the prefix read back differs from
the payload length. -/
theorem string_length_field_truncates_witness :
    toSigned16 (read16 (ComplexObjectString.serialize (List.replicate 32768 0))) ≠
      ((List.replicate 32768 0).length : Int) :=
  (string_length_field_truncates (List.replicate 32768 0)
    (by rw [List.length_replicate]; omega)).2.2

/-- C3 (the code evaluated at the failing input): with element width 4, wire
count 5 and only 8 bytes remaining (5*4 = 20 > 8-2 = 6), the array decoder
does not fail — the `std::runtime_error` objects at lines 441/448 are
constructed but never thrown — and it copies 5 elements (reading the zeroed
scratch padding past the data) and reports 22 bytes consumed. -/
theorem array_underrun_check_dead :
    TypeUnserializerImplArrTrivial.apply 4 2 ([5, 0] ++ [1, 2, 3, 4, 5, 6]) 8 =
      ([[1, 2, 3, 4], [5, 6, 0, 0], [0, 0, 0, 0], [0, 0, 0, 0], [0, 0, 0, 0]], 22) := by
  decide

/-- C10: the fixed-array decoder's result is a function of the element width
and the wire bytes alone — the declared array length `N` and the
remaining-byte argument do not influence it (`N` is never compared against
the wire count).  For wire count `c` (the 2-byte prefix read as a signed
`serial_size_t` and converted to `size_t`) the consumed-byte return value is
`2 + w * c` computed in `size_t` arithmetic — `(w * c + 2) % 2^64` — and the
number of complete elements copied is `w * c % 2^64 / w`; whenever
`w * c + 2` does not overflow `size_t` and `w` is positive (every in-range
decode, in particular every count the encoder can write for a real `sizeof`),
these are exactly `c` copied elements and `2 + w * c` consumed bytes. -/
theorem array_decode_ignores_declared_count
    (w N N' : Nat) (buf : List Nat) (bs bs' : Nat) :
    TypeUnserializerImplArrTrivial.apply w N buf bs =
      TypeUnserializerImplArrTrivial.apply w N' buf bs' ∧
    (TypeUnserializerImplArrTrivial.apply w N buf bs).1.length =
      w * sizeAsSizeT (toSigned16 (read16 buf)) % 2 ^ 64 / w ∧
    (TypeUnserializerImplArrTrivial.apply w N buf bs).2 =
      (w * sizeAsSizeT (toSigned16 (read16 buf)) + 2) % 2 ^ 64 ∧
    (w * sizeAsSizeT (toSigned16 (read16 buf)) + 2 < 2 ^ 64 → 0 < w →
      (TypeUnserializerImplArrTrivial.apply w N buf bs).1.length =
        sizeAsSizeT (toSigned16 (read16 buf)) ∧
      (TypeUnserializerImplArrTrivial.apply w N buf bs).2 =
        2 + w * sizeAsSizeT (toSigned16 (read16 buf))) := by
  refine ⟨rfl, ?_, rfl, fun hlt hw => ⟨?_, ?_⟩⟩
  · simp [TypeUnserializerImplArrTrivial.apply, toChunks_length]
  · simp only [TypeUnserializerImplArrTrivial.apply, toChunks_length]
    rw [Nat.mod_eq_of_lt (by omega)]
    exact Nat.mul_div_cancel_left _ hw
  · simp only [TypeUnserializerImplArrTrivial.apply]
    rw [Nat.mod_eq_of_lt (by omega)]
    omega

/-- Witness for C10: with element width 4 and wire count 5, decodes with
declared lengths 2 and 7 and remaining-byte arguments 8 and 3 coincide, copy
5 elements, and consume 2 + 4*5 = 22 bytes. -/
theorem array_decode_ignores_declared_count_witness :
    TypeUnserializerImplArrTrivial.apply 4 2 [5, 0, 9] 8 =
      TypeUnserializerImplArrTrivial.apply 4 7 [5, 0, 9] 3 ∧
    (TypeUnserializerImplArrTrivial.apply 4 2 [5, 0, 9] 8).1.length = 5 ∧
    (TypeUnserializerImplArrTrivial.apply 4 2 [5, 0, 9] 8).2 = 22 := by
  have h := array_decode_ignores_declared_count 4 2 7 [5, 0, 9] 8 3
  have hin := h.2.2.2 (by decide) (by decide)
  exact ⟨h.1, hin.1.trans (by decide), hin.2.trans (by decide)⟩

/-- C7: an input byte string shorter than the schema fingerprint width (but
within the buffer capacity) is rejected with the truncated-input error: the
rejection happens in `get_hash_from_bytes` before the fingerprint comparison
and before any field decoding, so the result is this error for every requested
schema and every composite codec, no output field is produced, and only the
input's length is consulted (no byte of it is read). -/
theorem truncated_input_rejected {γ : Type} (cc : CompositeCodec γ) (capacity : Nat)
    (tys : List FieldTy) (data : List Nat)
    (hcap : data.length ≤ capacity) (hshort : data.length < hash_size) :
    Unserialize.apply cc capacity tys data = .error .truncatedInput := by
  unfold Unserialize.apply
  rw [if_neg (by omega), if_pos hshort]

/-- Witness for C7: a 3-byte input against capacity 16384 and a one-string
schema is rejected as truncated. -/
theorem truncated_input_rejected_witness :
    Unserialize.apply nullCodec 16384 [FieldTy.str] [1, 2, 3] = .error .truncatedInput :=
  truncated_input_rejected nullCodec 16384 [FieldTy.str] [1, 2, 3] (by decide) (by decide)

/-- C4: once an input passes the capacity and truncation gates, the
fingerprint stored at offset 0 is compared with the fingerprint of the
requested output types: on mismatch the call fails with the schema-mismatch
error and produces no output fields; on equality the call proceeds to field
decoding (its result is exactly that of the field-decoding pass over the bytes
after the fingerprint). -/
theorem schema_gate {γ : Type} (cc : CompositeCodec γ) (capacity : Nat) (tys : List FieldTy)
    (data : List Nat) (hcap : data.length ≤ capacity) (hlen : hash_size ≤ data.length) :
    (read64 data ≠ fingerprintTys tys →
      Unserialize.apply cc capacity tys data = .error .schemaMismatch) ∧
    (read64 data = fingerprintTys tys →
      Unserialize.apply cc capacity tys data =
        match Unserialize.exec_impl cc tys
            ((data ++ List.replicate (capacity - data.length) 0).drop hash_size)
            (data.length - hash_size) with
        | .ok p => .ok (p.1, hash_size + p.2)
        | .error e => .error e) := by
  constructor <;> intro h <;> unfold Unserialize.apply
  · rw [if_neg (by omega), if_neg (by omega), if_neg h]
  · rw [if_neg (by omega), if_neg (by omega), if_pos h]

/-- Witness for C4: an 8-byte all-zero input stores fingerprint 0, which
differs from the fingerprint of a one-string schema, so the call is rejected
with schema-mismatch. -/
theorem schema_gate_witness :
    Unserialize.apply nullCodec 100 [FieldTy.str] [0, 0, 0, 0, 0, 0, 0, 0] =
      .error .schemaMismatch :=
  (schema_gate nullCodec 100 [FieldTy.str] [0, 0, 0, 0, 0, 0, 0, 0]
    (by decide) (by decide)).1 (by decide)

/-- C2 (the code evaluated at the failing input): `Serialize::apply` contains
no capacity check — the model has no capacity parameter precisely because the
`BufferSize` template argument only fixes the scratch array's length and is
never consulted — so with `BufferSize = 16` a record whose encoding needs 24
bytes still returns a complete 24-byte string instead of failing (in the C++
this is an out-of-bounds write past the 16-byte stack buffer).  A record whose
encoded size equals the capacity likewise returns normally, which is the one
part of the claim the code does satisfy. -/
theorem serialize_no_capacity_check :
    (Serialize.apply nullCodec [FieldTy.trivialScalar 16]
      [FieldVal.trivialScalar (List.replicate 16 7)]).length = 24 ∧ 16 < 24 := by
  decide

section RoundTripLemmas

theorem read16_encode16 (n : Nat) (rest : List Nat) :
    read16 (encode16 n ++ rest) = n % 65536 := by
  simp [read16, encode16, List.getD]
  omega

theorem read64_encode64 (n : Nat) (h : n < 2 ^ 64) (rest : List Nat) :
    read64 (encode64 n ++ rest) = n := by
  simp [read64, encode64, List.getD]
  omega

theorem typeIdentity_lt (ty : FieldTy) : typeIdentity ty < 2 ^ 64 := by
  cases ty <;> simp only [typeIdentity] <;> omega

theorem exec_impl_lt (l : List Nat) :
    ∀ value : Nat, value < 2 ^ 64 → (∀ h ∈ l, h < 2 ^ 64) →
      TypeHasher.exec_impl value l < 2 ^ 64 := by
  induction l with
  | nil => exact fun _ hv _ => hv
  | cons h rest ih =>
    intro value hv hl
    exact ih _ (Nat.xor_lt_two_pow hv (hl h (by simp))) fun x hx => hl x (by simp [hx])

theorem fingerprintTys_lt (tys : List FieldTy) : fingerprintTys tys < 2 ^ 64 := by
  unfold fingerprintTys TypeHasher.apply
  refine exec_impl_lt _ 0 (by norm_num) ?_
  intro h hh
  simp only [List.mem_map] at hh
  obtain ⟨ty, _, rfl⟩ := hh
  exact typeIdentity_lt ty

theorem sizeAsSizeT_coe (n : Nat) (h : n < 2 ^ 64) : sizeAsSizeT (n : Int) = n := by
  unfold sizeAsSizeT; omega

theorem toSigned16_small (v : Nat) (h : v < 32768) : toSigned16 v = (v : Int) := by
  unfold toSigned16; rw [if_pos h]

theorem sub64_small (a b : Nat) (hb : b ≤ a) (ha : a < 2 ^ 64) : sub64 a b = a - b := by
  unfold sub64; omega

theorem takePad_append (n : Nat) (l r : List Nat) (h : l.length = n) :
    takePad n (l ++ r) = l := by
  unfold takePad
  rw [List.take_left' h]
  have hz : n - (l.length + r.length) = 0 := by omega
  simp [List.length_append, hz]

theorem flatten_length_uniform (w : Nat) (elems : List (List Nat))
    (h : ∀ e ∈ elems, e.length = w) :
    elems.flatten.length = w * elems.length := by
  induction elems with
  | nil => simp
  | cons e es ih =>
    simp only [List.flatten_cons, List.length_append, List.length_cons,
      h e (by simp), ih fun x hx => h x (by simp [hx])]
    ring

theorem toChunks_flatten (w : Nat) (elems : List (List Nat))
    (h : ∀ e ∈ elems, e.length = w) :
    toChunks w elems.length elems.flatten = elems := by
  induction elems with
  | nil => rfl
  | cons e es ih =>
    simp only [List.length_cons, List.flatten_cons, toChunks]
    rw [List.take_left' (h e (by simp)), List.drop_left' (h e (by simp))]
    rw [ih fun x hx => h x (by simp [hx])]

theorem decodeField_encodeField {γ : Type} (cc : CompositeCodec γ) (hcc : cc.RoundTrips)
    (f : FieldVal γ) (ty : FieldTy) (hwf : f.wf ty) (rest : List Nat) (bs : Nat)
    (hbs : (encodeField cc f).length ≤ bs) (hbs64 : bs < 2 ^ 64) :
    decodeField cc ty (encodeField cc f ++ rest) bs =
      .ok (f, (encodeField cc f).length) := by
  cases f with
  | trivialScalar bytes =>
    cases ty with
    | trivialScalar w =>
      simp only [FieldVal.wf] at hwf
      subst hwf
      simp only [encodeField] at hbs ⊢
      simp only [decodeField, TypeUnserializerImplSimple.apply]
      rw [if_neg (by omega)]
      simp [Except.map, takePad_append _ bytes rest rfl]
    | str => simp [FieldVal.wf] at hwf
    | arrTrivial w n => simp [FieldVal.wf] at hwf
    | composite => simp [FieldVal.wf] at hwf
  | str s =>
    cases ty with
    | trivialScalar w => simp [FieldVal.wf] at hwf
    | str =>
      simp only [FieldVal.wf] at hwf
      simp only [encodeField, ComplexObjectString.serialize] at hbs ⊢
      have hlen : (encode16 s.length ++ s).length = 2 + s.length := by
        simp [encode16]
        omega
      rw [hlen] at hbs
      simp only [decodeField, ComplexObjectString.unserialize]
      rw [List.append_assoc, read16_encode16,
        Nat.mod_eq_of_lt (by omega : s.length < 65536),
        toSigned16_small _ (by omega)]
      have hc : ((s.length : Int) + 2) = ((s.length + 2 : Nat) : Int) := by push_cast; ring
      rw [hc, sizeAsSizeT_coe _ (by omega), sizeAsSizeT_coe _ (by omega)]
      rw [if_neg (by omega)]
      rw [if_neg (by omega : ¬((s.length : Int) < 0))]
      rw [List.drop_left' (by simp [encode16] : (encode16 s.length).length = 2)]
      rw [takePad_append _ s rest rfl]
      simp only [Except.map, hlen]
      rw [Nat.add_comm 2 s.length]
    | arrTrivial w n => simp [FieldVal.wf] at hwf
    | composite => simp [FieldVal.wf] at hwf
  | arrTrivial w' elems =>
    cases ty with
    | trivialScalar w => simp [FieldVal.wf] at hwf
    | str => simp [FieldVal.wf] at hwf
    | arrTrivial w n =>
      simp only [FieldVal.wf] at hwf
      obtain ⟨hw, hn, hn32, hwpos, helems⟩ := hwf
      subst hw
      subst hn
      simp only [encodeField, TypeSerializerImplArrTrivial.apply] at hbs ⊢
      simp only [decodeField, TypeUnserializerImplArrTrivial.apply]
      rw [List.append_assoc, read16_encode16,
        Nat.mod_eq_of_lt (by omega : elems.length < 65536),
        toSigned16_small _ (by omega), sizeAsSizeT_coe _ (by omega)]
      have hfl : elems.flatten.length = w' * elems.length :=
        flatten_length_uniform _ _ helems
      rw [List.drop_left' (by simp [encode16] : (encode16 elems.length).length = 2)]
      have hcons : (encode16 elems.length ++ elems.flatten).length =
          w' * elems.length + 2 := by
        simp only [List.length_append, List.length_cons, List.length_nil, encode16, hfl]
        omega
      have hlt : w' * elems.length + 2 < 2 ^ 64 := by
        rw [hcons] at hbs
        omega
      rw [Nat.mod_eq_of_lt (by omega : w' * elems.length < 2 ^ 64)]
      rw [Nat.mul_div_cancel_left _ hwpos]
      rw [takePad_append _ _ rest hfl, toChunks_flatten _ _ helems]
      rw [Nat.mod_eq_of_lt hlt]
      rw [hcons]
    | composite => simp [FieldVal.wf] at hwf
  | composite v =>
    cases ty with
    | trivialScalar w => simp [FieldVal.wf] at hwf
    | str => simp [FieldVal.wf] at hwf
    | arrTrivial w n => simp [FieldVal.wf] at hwf
    | composite =>
      simp only [encodeField] at hbs ⊢
      simp only [decodeField]
      obtain ⟨k, rfl⟩ : ∃ k, bs = (cc.ser v).length + k := ⟨bs - (cc.ser v).length, by omega⟩
      rw [List.take_append, hcc v (rest.take k)]

end RoundTripLemmas

theorem exec_impl_encode {γ : Type} (cc : CompositeCodec γ) (hcc : cc.RoundTrips)
    {fs : List (FieldVal γ)} {tys : List FieldTy} (hwf : List.Forall₂ FieldVal.wf fs tys) :
    ∀ (rest : List Nat) (bs : Nat), bs < 2 ^ 64 →
      ((fs.map (encodeField cc)).flatten).length ≤ bs →
      Unserialize.exec_impl cc tys ((fs.map (encodeField cc)).flatten ++ rest) bs =
        .ok (fs, ((fs.map (encodeField cc)).flatten).length) := by
  induction hwf with
  | nil =>
    intro rest bs _ _
    simp [Unserialize.exec_impl]
  | @cons f ty fs' tys' hf hrest ih =>
    intro rest bs hbs64 hle
    simp only [List.map_cons, List.flatten_cons, List.length_append] at hle ⊢
    rw [List.append_assoc]
    simp only [Unserialize.exec_impl]
    rw [decodeField_encodeField cc hcc f ty hf _ bs (by omega) hbs64]
    dsimp only
    rw [List.drop_left, sub64_small bs _ (by omega) hbs64]
    rw [ih (rest) (bs - (encodeField cc f).length) (by omega) (by omega)]

/-- C1 (amended): for every record made of the supported field kinds — trivial
scalars, strings, trivial fixed arrays, and composite objects whose
serialize/unserialize capability round-trips — whose encoding fits the
configured buffer capacity (a C++ `int`, hence below `2^64`), and in which
every string's byte length and every fixed array's element count is at most
32767 (the value range of the signed 16-bit length prefix), decoding the byte
string produced by `Serialize::apply` into output slots declared with the same
types in the same order succeeds and reconstructs exactly the original values,
consuming the whole encoding. -/
theorem record_roundtrip {γ : Type} (cc : CompositeCodec γ) (hcc : cc.RoundTrips)
    (capacity : Nat) (hcap64 : capacity < 2 ^ 64)
    (tys : List FieldTy) (fs : List (FieldVal γ))
    (hwf : List.Forall₂ FieldVal.wf fs tys)
    (hfit : (Serialize.apply cc tys fs).length ≤ capacity) :
    Unserialize.apply cc capacity tys (Serialize.apply cc tys fs) =
      .ok (fs, (Serialize.apply cc tys fs).length) := by
  have hdata : Serialize.apply cc tys fs =
      encode64 (fingerprintTys tys) ++ (fs.map (encodeField cc)).flatten := rfl
  have hflat8 : (Serialize.apply cc tys fs).length =
      8 + ((fs.map (encodeField cc)).flatten).length := by
    rw [hdata, List.length_append]
    simp [encode64]
  have hread : read64 (Serialize.apply cc tys fs) = fingerprintTys tys := by
    rw [hdata]; exact read64_encode64 _ (fingerprintTys_lt tys) _
  unfold Unserialize.apply
  rw [if_neg (by omega), if_neg (by simp only [hash_size]; omega), if_pos hread]
  have hdrop : ((Serialize.apply cc tys fs ++
      List.replicate (capacity - (Serialize.apply cc tys fs).length) 0).drop hash_size) =
      (fs.map (encodeField cc)).flatten ++
        List.replicate (capacity - (Serialize.apply cc tys fs).length) 0 := by
    rw [hdata, List.append_assoc]
    exact List.drop_left' (by simp [encode64, hash_size])
  rw [hdrop]
  have hbs : (Serialize.apply cc tys fs).length - hash_size =
      ((fs.map (encodeField cc)).flatten).length := by
    simp only [hash_size]; omega
  rw [hbs]
  rw [exec_impl_encode cc hcc hwf _ _ (by omega) (by omega)]
  simp only [hash_size]
  rw [hflat8]

/-- Witness for C1: a concrete record with one field of each supported kind —
a 4-byte scalar, the string "AB", a 2-element array of 2-byte elements, and a
composite object with a round-tripping one-byte codec — round-trips at the
default capacity 16384, its 23-byte encoding fully consumed. -/
theorem record_roundtrip_witness :
    Unserialize.apply unitCodec 16384
      [FieldTy.trivialScalar 4, FieldTy.str, FieldTy.arrTrivial 2 2, FieldTy.composite]
      (Serialize.apply unitCodec
        [FieldTy.trivialScalar 4, FieldTy.str, FieldTy.arrTrivial 2 2, FieldTy.composite]
        [FieldVal.trivialScalar [1, 2, 3, 4], FieldVal.str [65, 66],
         FieldVal.arrTrivial 2 [[5, 6], [7, 8]], FieldVal.composite ()]) =
      .ok ([FieldVal.trivialScalar [1, 2, 3, 4], FieldVal.str [65, 66],
            FieldVal.arrTrivial 2 [[5, 6], [7, 8]], FieldVal.composite ()], 23) := by
  have h := record_roundtrip unitCodec (fun _ _ => rfl) 16384 (by norm_num)
    [FieldTy.trivialScalar 4, FieldTy.str, FieldTy.arrTrivial 2 2, FieldTy.composite]
    [FieldVal.trivialScalar [1, 2, 3, 4], FieldVal.str [65, 66],
     FieldVal.arrTrivial 2 [[5, 6], [7, 8]], FieldVal.composite ()]
    (by
      refine List.Forall₂.cons (by simp [FieldVal.wf]) ?_
      refine List.Forall₂.cons (by simp [FieldVal.wf]) ?_
      refine List.Forall₂.cons ?_ (List.Forall₂.cons (by simp [FieldVal.wf]) List.Forall₂.nil)
      refine ⟨rfl, rfl, by omega, by omega, ?_⟩
      intro e he
      simp at he
      rcases he with h | h <;> simp [h])
    (by decide)
  have hl : (Serialize.apply unitCodec
      [FieldTy.trivialScalar 4, FieldTy.str, FieldTy.arrTrivial 2 2, FieldTy.composite]
      [FieldVal.trivialScalar [1, 2, 3, 4], FieldVal.str [65, 66],
       FieldVal.arrTrivial 2 [[5, 6], [7, 8]], FieldVal.composite ()]).length = 23 := by
    decide
  rw [h, hl]

/-- C1 counterexample (the claim as frozen is false): the record consisting of
the single 32768-byte string fits the configured capacity 40000 (its encoding
is 32778 bytes), yet decoding the encoding into a slot of the same type does
not succeed: the length prefix 32768 is read back as the signed 16-bit value
-32768, the computed full size wraps around `2^64`, and the decode fails with
the size-underrun error instead of reconstructing the original string. -/
theorem record_roundtrip_counterexample :
    (Serialize.apply nullCodec [FieldTy.str]
        [FieldVal.str (List.replicate 32768 97)]).length ≤ 40000 ∧
    Unserialize.apply nullCodec 40000 [FieldTy.str]
        (Serialize.apply nullCodec [FieldTy.str]
          [FieldVal.str (List.replicate 32768 97)]) =
      .error .sizeUnderrun := by
  have hlenrep : (List.replicate 32768 (97 : Nat)).length = 32768 :=
    List.length_replicate 32768 97
  have hdata : Serialize.apply nullCodec [FieldTy.str]
        [FieldVal.str (List.replicate 32768 97)] =
      encode64 (fingerprintTys [FieldTy.str]) ++
        (encode16 32768 ++ List.replicate 32768 97) := by
    simp only [Serialize.apply, List.map_cons, List.map_nil, List.flatten_cons,
      List.flatten_nil, List.append_nil, encodeField, ComplexObjectString.serialize, hlenrep]
  have hlen : (encode64 (fingerprintTys [FieldTy.str]) ++
      (encode16 32768 ++ List.replicate 32768 97)).length = 32778 := by
    rw [List.length_append, List.length_append, List.length_replicate]
    have h1 : (encode64 (fingerprintTys [FieldTy.str])).length = 8 := rfl
    have h2 : (encode16 32768).length = 2 := rfl
    rw [h1, h2]
  constructor
  · rw [hdata, hlen]; norm_num
  · rw [hdata]
    unfold Unserialize.apply
    rw [hlen]
    rw [if_neg (by norm_num), if_neg (by simp [hash_size])]
    rw [if_pos (read64_encode64 _ (fingerprintTys_lt [FieldTy.str]) _)]
    have hdrop : ((encode64 (fingerprintTys [FieldTy.str]) ++
        (encode16 32768 ++ List.replicate 32768 97)) ++
          List.replicate (40000 - 32778) 0).drop hash_size =
        (encode16 32768 ++ List.replicate 32768 97) ++
          List.replicate (40000 - 32778) 0 := by
      rw [List.append_assoc]
      exact List.drop_left' (by simp [encode64, hash_size])
    rw [hdrop]
    simp only [Unserialize.exec_impl, decodeField]
    have hr16 : read16 ((encode16 32768 ++ List.replicate 32768 97) ++
        List.replicate (40000 - 32778) 0) = 32768 := by
      rw [List.append_assoc, read16_encode16]
    simp only [ComplexObjectString.unserialize, hr16]
    have hts : toSigned16 32768 = -32768 := by decide
    rw [hts]
    have hfs : sizeAsSizeT (-32768 + 2) = 18446744073709518850 := by decide
    rw [hfs]
    rw [if_pos (by simp [hash_size])]
    simp [Except.map]
